import Mathlib

/-!
Verification of the YouTube transcript summarizer pipeline
(`index.py`, `utils/chunk_transcript.py`, `utils/extract_video_id.py`,
`utils/format_transcript.py`).

Strings are modelled as `List Char` (Python strings are sequences of code
points, and `len` counts code points), or as Lean `String` where only
concatenation is involved.  Machine-level details (file descriptors,
actual JSON bytes) are abstracted into small state types; the pure
algorithms are translated line by line from the source.
-/

set_option maxRecDepth 10000

namespace YTS

/-! ### chunk_transcript.py

`chunk_transcript(transcript_text, max_chars=4000)` splits a string on
newline boundaries, greedily accumulating lines into chunks. -/

/-- Python `text.split("\n")` on a list of characters. -/
def pySplitNL : List Char → List (List Char)
  | [] => [[]]
  | c :: rest =>
      if c = '\n' then [] :: pySplitNL rest
      else
        match pySplitNL rest with
        | [] => [[c]]
        | l :: ls => (c :: l) :: ls

/-- Python `"\n".join(parts)` on lists of characters. -/
def joinNL : List (List Char) → List Char
  | [] => []
  | [l] => l
  | l :: ls => l ++ '\n' :: joinNL ls

/-- The accumulation loop of `chunk_transcript` (lines 40-54 of
chunk_transcript.py): `cc` is `current_chunk`, `clen` is
`current_length`; a chunk is flushed before a line is appended whenever
appending it would push `current_length` past `max_chars` and the
current chunk is non-empty. -/
def chunkGo (max_chars : Nat) : List (List Char) → List (List Char) → Nat → List (List Char)
  | [], cc, _ => if cc = [] then [] else [joinNL cc]
  | line :: rest, cc, clen =>
      if clen + (line.length + 1) > max_chars ∧ cc ≠ [] then
        joinNL cc :: chunkGo max_chars rest [line] (line.length + 1)
      else
        chunkGo max_chars rest (cc ++ [line]) (clen + (line.length + 1))

/-- Function `chunk_transcript` from chunk_transcript.py: empty input gives `[]`,
input not longer than `max_chars` is returned whole, otherwise the text
is split on newlines and greedily re-grouped. -/
def chunk_transcript (transcript_text : List Char) (max_chars : Nat) : List (List Char) :=
  if transcript_text = [] then []
  else if transcript_text.length ≤ max_chars then [transcript_text]
  else chunkGo max_chars (pySplitNL transcript_text) [] 0

/-! Basic facts about `pySplitNL` and `joinNL`. -/

theorem pySplitNL_ne_nil (s : List Char) : pySplitNL s ≠ [] := by
  cases s with
  | nil => simp [pySplitNL]
  | cons c rest =>
      simp only [pySplitNL]
      split
      · simp
      · cases h : pySplitNL rest <;> simp

theorem joinNL_cons (l : List Char) (ls : List (List Char)) (h : ls ≠ []) :
    joinNL (l :: ls) = l ++ '\n' :: joinNL ls := by
  cases ls with
  | nil => exact absurd rfl h
  | cons a as => rfl

theorem joinNL_pySplitNL (s : List Char) : joinNL (pySplitNL s) = s := by
  induction s with
  | nil => rfl
  | cons c rest ih =>
      simp only [pySplitNL]
      split
      · rename_i hc
        rw [joinNL_cons _ _ (pySplitNL_ne_nil rest), ih, hc]
        rfl
      · cases h : pySplitNL rest with
        | nil => exact absurd h (pySplitNL_ne_nil rest)
        | cons l ls =>
            rw [h] at ih
            cases ls with
            | nil => simpa [joinNL] using ih
            | cons m ms =>
                rw [joinNL_cons _ _ (by simp)] at ih ⊢
                simpa using ih

theorem pySplitNL_no_newline (s : List Char) : ∀ l ∈ pySplitNL s, '\n' ∉ l := by
  induction s with
  | nil => simp [pySplitNL]
  | cons c rest ih =>
      intro l hl
      simp only [pySplitNL] at hl
      by_cases hc : c = '\n'
      · rw [if_pos hc] at hl
        rcases List.mem_cons.mp hl with h | h
        · simp [h]
        · exact ih l h
      · rw [if_neg hc] at hl
        cases hsp : pySplitNL rest with
        | nil => exact absurd hsp (pySplitNL_ne_nil rest)
        | cons m ms =>
            rw [hsp] at hl
            rcases List.mem_cons.mp hl with h | h
            · subst h
              intro hmem
              rcases List.mem_cons.mp hmem with h2 | h2
              · exact hc h2.symm
              · exact ih m (hsp ▸ List.mem_cons_self m ms) h2
            · exact ih l (hsp ▸ List.mem_cons_of_mem m h)

theorem pySplitNL_of_no_newline (l : List Char) (hl : '\n' ∉ l) :
    pySplitNL l = [l] := by
  induction l with
  | nil => rfl
  | cons c cs ih =>
      have hc : c ≠ '\n' := fun h => hl (by simp [h])
      have hcs : '\n' ∉ cs := fun h => hl (List.mem_cons_of_mem c h)
      simp only [pySplitNL, if_neg hc, ih hcs]

theorem pySplitNL_append_newline (a t : List Char) (ha : '\n' ∉ a) :
    pySplitNL (a ++ '\n' :: t) = a :: pySplitNL t := by
  induction a with
  | nil => simp [pySplitNL]
  | cons c cs ih =>
      have hc : c ≠ '\n' := fun h => ha (by simp [h])
      have hcs : '\n' ∉ cs := fun h => ha (List.mem_cons_of_mem c h)
      rw [List.cons_append]
      simp only [pySplitNL, if_neg hc, ih hcs]

theorem pySplitNL_joinNL (ls : List (List Char)) (hnl : ∀ l ∈ ls, '\n' ∉ l)
    (hne : ls ≠ []) : pySplitNL (joinNL ls) = ls := by
  induction ls with
  | nil => exact absurd rfl hne
  | cons l rest ih =>
      cases rest with
      | nil => exact pySplitNL_of_no_newline l (hnl l (by simp))
      | cons m ms =>
          rw [joinNL_cons _ _ (by simp),
              pySplitNL_append_newline l _ (hnl l (by simp)),
              ih (fun x hx => hnl x (List.mem_cons_of_mem l hx)) (by simp)]

theorem joinNL_append (a b : List (List Char)) (ha : a ≠ []) (hb : b ≠ []) :
    joinNL (a ++ b) = joinNL a ++ '\n' :: joinNL b := by
  induction a with
  | nil => exact absurd rfl ha
  | cons l ls ih =>
      cases ls with
      | nil =>
          rw [List.cons_append, List.nil_append, joinNL_cons _ _ hb]
          rfl
      | cons m ms =>
          rw [List.cons_append, joinNL_cons _ _ (by simp),
              joinNL_cons _ _ (by simp), ih (by simp), List.append_assoc]
          rfl

/-- Total "length contribution" of the accumulated lines: each line
counts as its length plus one for the newline, mirroring
`current_length`. -/
def lineLen (cc : List (List Char)) : Nat := (cc.map (fun l => l.length + 1)).sum

theorem joinNL_length (cc : List (List Char)) (h : cc ≠ []) :
    (joinNL cc).length + 1 = lineLen cc := by
  induction cc with
  | nil => exact absurd rfl h
  | cons l ls ih =>
      cases ls with
      | nil => simp [joinNL, lineLen]
      | cons m ms =>
          rw [joinNL_cons _ _ (by simp)]
          have := ih (by simp)
          simp only [lineLen, List.map_cons, List.sum_cons] at this ⊢
          simp only [List.length_append, List.length_cons]
          omega

theorem chunkGo_ne_nil (m : Nat) (ls cc : List (List Char)) (n : Nat) (h : cc ≠ []) :
    chunkGo m ls cc n ≠ [] := by
  induction ls generalizing cc n with
  | nil => simp [chunkGo, h]
  | cons line rest ih =>
      simp only [chunkGo]
      split
      · simp
      · exact ih (cc ++ [line]) _ (by simp)

/-- Invariant: the chunks produced by the loop, re-split on newlines,
concatenate to exactly the pending lines (`cc ++ ls`). -/
theorem chunkGo_flatten (m : Nat) (ls : List (List Char)) :
    ∀ (cc : List (List Char)) (n : Nat), cc ≠ [] →
      (∀ l ∈ cc ++ ls, '\n' ∉ l) →
      ((chunkGo m ls cc n).map pySplitNL).flatten = cc ++ ls := by
  induction ls with
  | nil =>
      intro cc n hcc hnl
      simp only [chunkGo, if_neg hcc, List.map_cons, List.map_nil]
      rw [List.flatten_cons, List.flatten_nil,
        pySplitNL_joinNL cc (fun l hl => hnl l (by simpa using hl)) hcc]
  | cons line rest ih =>
      intro cc n hcc hnl
      simp only [chunkGo]
      split
      · rw [List.map_cons, List.flatten_cons,
            pySplitNL_joinNL cc (fun l hl => hnl l (by simp [hl])) hcc,
            ih [line] _ (by simp)
              (fun l hl => hnl l (List.mem_append_right cc (by simpa using hl)))]
        simp
      · rw [ih (cc ++ [line]) _ (by simp)
              (fun l hl => hnl l (by simpa [or_assoc] using hl))]
        simp

/-- Invariant: joining the produced chunks with newlines gives the same
string as joining all pending lines. -/
theorem chunkGo_joinNL (m : Nat) (ls : List (List Char)) :
    ∀ (cc : List (List Char)) (n : Nat), cc ≠ [] →
      joinNL (chunkGo m ls cc n) = joinNL (cc ++ ls) := by
  induction ls with
  | nil =>
      intro cc n hcc
      simp only [chunkGo, if_neg hcc, List.append_nil]
      rfl
  | cons line rest ih =>
      intro cc n hcc
      simp only [chunkGo]
      split
      · rw [joinNL_cons _ _ (chunkGo_ne_nil _ _ _ _ (by simp)),
            ih [line] _ (by simp),
            joinNL_append cc (line :: rest) hcc (by simp)]
        rfl
      · rw [ih (cc ++ [line]) _ (by simp), List.append_assoc]
        rfl

/-- Invariant used for the size bounds: provided `clen` is the exact
length contribution of `cc`, and `cc` is within budget whenever it
holds at least two lines, every produced chunk that splits into two or
more lines is at most `m` characters, and every chunk longer than `m`
is a single original line. -/
theorem chunkGo_bounds (m : Nat) (ls : List (List Char)) :
    ∀ (cc : List (List Char)) (clen : Nat), cc ≠ [] →
      clen = lineLen cc →
      (2 ≤ cc.length → clen ≤ m) →
      (∀ l ∈ cc ++ ls, '\n' ∉ l) →
      ∀ c ∈ chunkGo m ls cc clen,
        (2 ≤ (pySplitNL c).length → c.length ≤ m) ∧
        (m < c.length → pySplitNL c = [c]) := by
  induction ls with
  | nil =>
      intro cc clen hcc hclen hbound hnl c hc
      simp only [chunkGo, if_neg hcc, List.mem_singleton] at hc
      subst hc
      have hsplit : pySplitNL (joinNL cc) = cc :=
        pySplitNL_joinNL cc (fun l hl => hnl l (by simpa using hl)) hcc
      have hlen := joinNL_length cc hcc
      constructor
      · intro h2
        rw [hsplit] at h2
        have := hbound h2
        omega
      · intro hlong
        rw [hsplit]
        cases cc with
        | nil => exact absurd rfl hcc
        | cons l ls2 =>
            cases ls2 with
            | nil => rfl
            | cons a as =>
                have := hbound (by simp)
                omega
  | cons line rest ih =>
      intro cc clen hcc hclen hbound hnl c hc
      simp only [chunkGo] at hc
      split at hc
      · rcases List.mem_cons.mp hc with hc | hc
        · subst hc
          have hsplit : pySplitNL (joinNL cc) = cc :=
            pySplitNL_joinNL cc (fun l hl => hnl l (by simp [hl])) hcc
          have hlen := joinNL_length cc hcc
          constructor
          · intro h2
            rw [hsplit] at h2
            have := hbound h2
            omega
          · intro hlong
            rw [hsplit]
            cases cc with
            | nil => exact absurd rfl hcc
            | cons l ls2 =>
                cases ls2 with
                | nil => rfl
                | cons a as =>
                    have := hbound (by simp)
                    omega
        · exact ih [line] _ (by simp) (by simp [lineLen]) (by simp)
            (fun l hl => hnl l (List.mem_append_right cc (by simpa using hl))) c hc
      · rename_i hcond
        refine ih (cc ++ [line]) _ (by simp) ?_ ?_
          (fun l hl => hnl l (by simpa [or_assoc] using hl)) c hc
        · simp [lineLen, hclen]
        · intro _
          rcases Decidable.em (cc = []) with hnil | hnil
          · subst hnil
            simp_all
          · have : ¬ clen + (line.length + 1) > m := by
              intro hgt; exact hcond ⟨hgt, hnil⟩
            omega

/-- C1: the chunks of `chunk_transcript` are contiguous, non-overlapping
slices of `text.split("\n")`: their line sequences concatenate to the
original line sequence, and joining the chunks with a newline
reconstructs the text exactly. -/
theorem C1_chunks_partition (text : List Char) (max_chars : Nat)
    (hne : text ≠ []) (_hm : 1 ≤ max_chars) :
    joinNL (chunk_transcript text max_chars) = text ∧
    ((chunk_transcript text max_chars).map pySplitNL).flatten = pySplitNL text := by
  unfold chunk_transcript
  rw [if_neg hne]
  by_cases hfit : text.length ≤ max_chars
  · rw [if_pos hfit]
    constructor
    · rfl
    · rw [List.map_cons, List.map_nil, List.flatten_cons, List.flatten_nil,
        List.append_nil]
  · rw [if_neg hfit]
    cases hsplit : pySplitNL text with
    | nil => exact absurd hsplit (pySplitNL_ne_nil text)
    | cons l rest =>
        have hnl := pySplitNL_no_newline text
        rw [hsplit] at hnl
        have htext : joinNL (l :: rest) = text := by
          rw [← hsplit, joinNL_pySplitNL]
        have hstep : chunkGo max_chars (l :: rest) [] 0 =
            chunkGo max_chars rest [l] (l.length + 1) := by
          simp [chunkGo]
        rw [hstep]
        constructor
        · rw [chunkGo_joinNL _ _ [l] _ (by simp)]
          rw [show ([l] : List (List Char)) ++ rest = l :: rest from rfl, htext]
        · rw [chunkGo_flatten _ _ [l] _ (by simp)
            (fun x hx => hnl x (by simpa using hx))]
          rfl

/-- C1 witness: the spec's own example, `"a\nbb\nccc\ndddddddddd"` with
`max_chars = 10`. -/
theorem C1_chunks_partition_witness :
    ("a\nbb\nccc\ndddddddddd".data ≠ [] ∧ 1 ≤ 10) ∧
    (joinNL (chunk_transcript "a\nbb\nccc\ndddddddddd".data 10) =
        "a\nbb\nccc\ndddddddddd".data ∧
      ((chunk_transcript "a\nbb\nccc\ndddddddddd".data 10).map pySplitNL).flatten =
        pySplitNL "a\nbb\nccc\ndddddddddd".data) :=
  ⟨⟨by decide, by decide⟩,
    C1_chunks_partition "a\nbb\nccc\ndddddddddd".data 10 (by decide) (by decide)⟩

/-- C6: a chunk longer than `max_chars` is a single source line (its
newline-split is itself, it contains no newline, and it is one of the
original lines); a chunk holding two or more lines is at most
`max_chars` characters. -/
theorem C6_oversized_chunks (text : List Char) (max_chars : Nat)
    (_hm : 1 ≤ max_chars) :
    ∀ c ∈ chunk_transcript text max_chars,
      (max_chars < c.length →
        pySplitNL c = [c] ∧ '\n' ∉ c ∧ c ∈ pySplitNL text) ∧
      (2 ≤ (pySplitNL c).length → c.length ≤ max_chars) := by
  intro c hc
  unfold chunk_transcript at hc
  by_cases hne : text = []
  · rw [if_pos hne] at hc
    simp at hc
  · rw [if_neg hne] at hc
    by_cases hfit : text.length ≤ max_chars
    · rw [if_pos hfit] at hc
      simp only [List.mem_singleton] at hc
      subst hc
      exact ⟨fun hlong => absurd hfit (by omega), fun _ => hfit⟩
    · rw [if_neg hfit] at hc
      cases hsplit : pySplitNL text with
      | nil => exact absurd hsplit (pySplitNL_ne_nil text)
      | cons l rest =>
          rw [hsplit] at hc
          have hnl := pySplitNL_no_newline text
          rw [hsplit] at hnl
          have hstep : chunkGo max_chars (l :: rest) [] 0 =
              chunkGo max_chars rest [l] (l.length + 1) := by
            simp [chunkGo]
          rw [hstep] at hc
          have hb := chunkGo_bounds max_chars rest [l] (l.length + 1)
            (by simp) (by simp [lineLen]) (by simp)
            (fun x hx => hnl x (by simpa using hx)) c hc
          have hflat := chunkGo_flatten max_chars rest [l] (l.length + 1)
            (by simp) (fun x hx => hnl x (by simpa using hx))
          refine ⟨fun hlong => ?_, hb.1⟩
          have hself : pySplitNL c = [c] := hb.2 hlong
          have hmem : c ∈ l :: rest := by
            have hjoin : c ∈ ((chunkGo max_chars rest [l] (l.length + 1)).map
                pySplitNL).flatten := by
              apply List.mem_flatten.mpr
              exact ⟨pySplitNL c, List.mem_map_of_mem pySplitNL hc,
                by rw [hself]; simp⟩
            rw [hflat] at hjoin
            simpa using hjoin
          exact ⟨hself, hnl c hmem, hmem⟩

/-- C6 witness: on the spec's example with `max_chars = 10`, the chunk
`"dddddddddd"` (a single long line) satisfies both bounds. -/
theorem C6_oversized_chunks_witness :
    (1 ≤ 10 ∧ "dddddddddd".data ∈ chunk_transcript "a\nbb\nccc\ndddddddddd".data 10) ∧
    ((10 < "dddddddddd".data.length →
        pySplitNL "dddddddddd".data = ["dddddddddd".data] ∧
        '\n' ∉ "dddddddddd".data ∧
        "dddddddddd".data ∈ pySplitNL "a\nbb\nccc\ndddddddddd".data) ∧
      (2 ≤ (pySplitNL "dddddddddd".data).length → "dddddddddd".data.length ≤ 10)) :=
  ⟨⟨by decide, by decide⟩,
    C6_oversized_chunks "a\nbb\nccc\ndddddddddd".data 10 (by decide)
      "dddddddddd".data (by decide)⟩

/-! ### extract_video_id.py

The five regular expressions in `YOUTUBE_PATTERNS` all have the shape
"optional protocol, optional `www.` (except for the `youtu.be` pattern),
a fixed literal, then either a captured run of exactly 11 ID characters
or (for the watch pattern) `.*v=` followed by the captured run".  They
are modelled by explicit backtracking matchers with Python `re.search`
semantics: the leftmost match wins, ordered alternation tries
alternatives left to right, and the greedy `.*` prefers the longest
(i.e. rightmost) viable `v=` occurrence that is not separated from the
search position by a newline. -/

/-- Characters of the ID class `[a-zA-Z0-9_-]`. -/
def isIdChar (c : Char) : Bool := c.isAlphanum || c == '_' || c == '-'

/-- ASCII whitespace recognised by Python `str.strip()`. -/
def isPySpace (c : Char) : Bool :=
  c == ' ' || c == '\t' || c == '\n' || c == '\r' || c == '\x0b' || c == '\x0c'

/-- Python `str.strip()`: drop whitespace from both ends. -/
def pyStrip (s : List Char) : List Char :=
  ((s.dropWhile isPySpace).reverse.dropWhile isPySpace).reverse

/-- Python `re.match(BARE_ID_PATTERN, text)`: the whole text is exactly 11 ID
characters. -/
def bareIdMatch (s : List Char) : Bool := s.length == 11 && s.all isIdChar

/-- Consume a fixed literal at the head of the input, returning the
rest. -/
def dropLit : List Char → List Char → Option (List Char)
  | [], s => some s
  | _ :: _, [] => none
  | c :: l, d :: s => if d = c then dropLit l s else none

/-- Ordered alternation with a continuation: try each alternative
literal in turn; an alternative succeeds only if the continuation
succeeds on what remains (regex backtracking order). -/
def tryAlts (alts : List (List Char)) (k : List Char → Option (List Char))
    (s : List Char) : Option (List Char) :=
  match alts with
  | [] => none
  | a :: more =>
      match dropLit a s with
      | some r =>
          match k r with
          | some g => some g
          | none => tryAlts more k s
      | none => tryAlts more k s

/-- Capture `([a-zA-Z0-9_-]{n})`: exactly the next `n` characters, all
in the ID class. -/
def takeGroup : Nat → List Char → Option (List Char)
  | 0, _ => some []
  | _ + 1, [] => none
  | n + 1, c :: rest =>
      if isIdChar c then (takeGroup n rest).map (fun g => c :: g) else none

/-- The head test for `v=([a-zA-Z0-9_-]{11})`. -/
def vEqHead : List Char → Option (List Char)
  | 'v' :: '=' :: rest => takeGroup 11 rest
  | _ => none

/-- Greedy `.*v=([a-zA-Z0-9_-]{11})`: the dot cannot cross a newline,
and the greedy star prefers the rightmost viable `v=` occurrence. -/
def findLastVEq : List Char → Option (List Char)
  | [] => none
  | c :: rest =>
      if c = '\n' then none
      else
        match findLastVEq rest with
        | some g => some g
        | none => vEqHead (c :: rest)

/-- Alternatives generated by `(?:https?://)?` in regex backtracking
order (greedy `s?` first, then the empty alternative). -/
def protoAlts : List (List Char) := ["https://".data, "http://".data, []]

/-- Alternatives generated by `(?:www\.)?`. -/
def wwwAlts : List (List Char) := ["www.".data, []]

/-- The fixed literal of a pattern followed by its capturing tail. -/
def litTail (lit : List Char) (tail : List Char → Option (List Char))
    (r : List Char) : Option (List Char) :=
  match dropLit lit r with
  | some r3 => tail r3
  | none => none

/-- Matcher anchored at the current position for a pattern with both an
optional protocol and an optional `www.`. -/
def shapeMatchW (lit : List Char) (tail : List Char → Option (List Char))
    (s : List Char) : Option (List Char) :=
  tryAlts protoAlts (fun r1 => tryAlts wwwAlts (litTail lit tail) r1) s

/-- Matcher anchored at the current position for a pattern with only an
optional protocol (the `youtu.be` pattern has no `www.` group). -/
def shapeMatchN (lit : List Char) (tail : List Char → Option (List Char))
    (s : List Char) : Option (List Char) :=
  tryAlts protoAlts (litTail lit tail) s

def litWatch : List Char := "youtube.com/watch?".data
def litYoutuBe : List Char := "youtu.be/".data
def litShorts : List Char := "youtube.com/shorts/".data
def litEmbed : List Char := "youtube.com/embed/".data
def litLive : List Char := "youtube.com/live/".data

/-- Pattern 1: `(?:https?://)?(?:www\.)?youtube\.com/watch\?.*v=([a-zA-Z0-9_-]{11})`. -/
def matchWatchAt : List Char → Option (List Char) :=
  shapeMatchW litWatch findLastVEq

/-- Pattern 2: `(?:https?://)?youtu\.be/([a-zA-Z0-9_-]{11})`. -/
def matchYoutuBeAt : List Char → Option (List Char) :=
  shapeMatchN litYoutuBe (takeGroup 11)

/-- Pattern 3: `(?:https?://)?(?:www\.)?youtube\.com/shorts/([a-zA-Z0-9_-]{11})`. -/
def matchShortsAt : List Char → Option (List Char) :=
  shapeMatchW litShorts (takeGroup 11)

/-- Pattern 4: `(?:https?://)?(?:www\.)?youtube\.com/embed/([a-zA-Z0-9_-]{11})`. -/
def matchEmbedAt : List Char → Option (List Char) :=
  shapeMatchW litEmbed (takeGroup 11)

/-- Pattern 5: `(?:https?://)?(?:www\.)?youtube\.com/live/([a-zA-Z0-9_-]{11})`. -/
def matchLiveAt : List Char → Option (List Char) :=
  shapeMatchW litLive (takeGroup 11)

/-- Python `re.search`: try the matcher at every start position, leftmost
first. -/
def scanFrom (m : List Char → Option (List Char)) : List Char → Option (List Char)
  | [] => m []
  | c :: rest =>
      match m (c :: rest) with
      | some g => some g
      | none => scanFrom m rest

/-- Function `extract_video_id` from extract_video_id.py, on a character list:
strip, test the bare-ID pattern, then search the five URL patterns in
order; `none` models `raise ValueError`. -/
def extractList (url_or_id : List Char) : Option (List Char) :=
  let text := pyStrip url_or_id
  if bareIdMatch text then some text
  else
    match scanFrom matchWatchAt text with
    | some g => some g
    | none =>
    match scanFrom matchYoutuBeAt text with
    | some g => some g
    | none =>
    match scanFrom matchShortsAt text with
    | some g => some g
    | none =>
    match scanFrom matchEmbedAt text with
    | some g => some g
    | none =>
    match scanFrom matchLiveAt text with
    | some g => some g
    | none => none

/-- Function `extract_video_id` on Lean strings. -/
def extract_video_id (url_or_id : String) : Option String :=
  (extractList url_or_id.data).map String.mk

/-! Soundness of the matcher combinators. -/

theorem dropLit_eq (a : List Char) :
    ∀ (s r : List Char), dropLit a s = some r → s = a ++ r := by
  induction a with
  | nil =>
      intro s r h
      simp only [dropLit, Option.some.injEq] at h
      simp [h]
  | cons c l ih =>
      intro s r h
      cases s with
      | nil => exact absurd h (by simp [dropLit])
      | cons d t =>
          simp only [dropLit] at h
          split at h
          · rename_i hd
            rw [List.cons_append, hd, ih t r h]
          · exact absurd h (by simp)

theorem tryAlts_sound (alts : List (List Char)) (k : List Char → Option (List Char))
    (s g : List Char) (h : tryAlts alts k s = some g) :
    ∃ a ∈ alts, ∃ r, dropLit a s = some r ∧ k r = some g := by
  induction alts with
  | nil => exact absurd h (by simp [tryAlts])
  | cons a more ih =>
      cases hd : dropLit a s with
      | none =>
          simp only [tryAlts, hd] at h
          obtain ⟨a2, ha2, r, hr⟩ := ih h
          exact ⟨a2, List.mem_cons_of_mem a ha2, r, hr⟩
      | some r =>
          cases hk : k r with
          | none =>
              simp only [tryAlts, hd, hk] at h
              obtain ⟨a2, ha2, r2, hr2⟩ := ih h
              exact ⟨a2, List.mem_cons_of_mem a ha2, r2, hr2⟩
          | some g2 =>
              simp only [tryAlts, hd, hk, Option.some.injEq] at h
              subst h
              exact ⟨a, List.mem_cons_self a more, r, hd, hk⟩

theorem takeGroup_sound : ∀ (n : Nat) (s g : List Char),
    takeGroup n s = some g →
      g.length = n ∧ (∀ c ∈ g, isIdChar c = true) ∧ ∃ r, s = g ++ r := by
  intro n
  induction n with
  | zero =>
      intro s g h
      simp only [takeGroup, Option.some.injEq] at h
      subst h
      exact ⟨rfl, by simp, s, rfl⟩
  | succ n ih =>
      intro s g h
      cases s with
      | nil => exact absurd h (by simp [takeGroup])
      | cons c rest =>
          simp only [takeGroup] at h
          split at h
          · rename_i hid
            cases hg : takeGroup n rest with
            | none => rw [hg] at h; exact absurd h (by simp)
            | some g2 =>
                rw [hg] at h
                obtain rfl : c :: g2 = g := by simpa using h
                obtain ⟨hlen, hall, r, hr⟩ := ih rest g2 hg
                refine ⟨by simp [hlen], ?_, r, by simp [hr]⟩
                intro x hx
                rcases List.mem_cons.mp hx with hx | hx
                · rw [hx]; exact hid
                · exact hall x hx
          · exact absurd h (by simp)

theorem takeGroup_complete : ∀ (v r : List Char),
    (∀ c ∈ v, isIdChar c = true) → takeGroup v.length (v ++ r) = some v := by
  intro v
  induction v with
  | nil => intro r _; rfl
  | cons c rest ih =>
      intro r hall
      simp only [List.length_cons, List.cons_append, takeGroup,
        if_pos (hall c (List.mem_cons_self c rest)), List.append_eq]
      rw [ih r (fun x hx => hall x (List.mem_cons_of_mem c hx))]
      rfl

theorem vEqHead_sound (s g : List Char) (h : vEqHead s = some g) :
    ∃ r, takeGroup 11 r = some g := by
  unfold vEqHead at h
  split at h
  · exact ⟨_, h⟩
  · exact absurd h (by simp)

theorem findLastVEq_sound : ∀ (s g : List Char), findLastVEq s = some g →
    ∃ r, takeGroup 11 r = some g := by
  intro s
  induction s with
  | nil => intro g h; exact absurd h (by simp [findLastVEq])
  | cons c rest ih =>
      intro g h
      simp only [findLastVEq] at h
      split at h
      · exact absurd h (by simp)
      · cases hrec : findLastVEq rest with
        | some g2 =>
            rw [hrec] at h
            obtain rfl : g2 = g := by simpa using h
            exact ih g2 hrec
        | none =>
            rw [hrec] at h
            exact vEqHead_sound _ _ h

theorem litTail_sound (lit : List Char) (tail : List Char → Option (List Char))
    (r g : List Char) (h : litTail lit tail r = some g) :
    ∃ b, r = lit ++ b ∧ tail b = some g := by
  cases hd : dropLit lit r with
  | none =>
      simp only [litTail, hd] at h
      exact absurd h (by simp)
  | some r3 =>
      simp only [litTail, hd] at h
      exact ⟨r3, dropLit_eq _ _ _ hd, h⟩

theorem shapeMatchW_sound (lit : List Char)
    (tail : List Char → Option (List Char)) (s g : List Char)
    (h : shapeMatchW lit tail s = some g) :
    ∃ a b, s = a ++ lit ++ b ∧ tail b = some g := by
  unfold shapeMatchW at h
  obtain ⟨a1, _, r1, hd1, h1⟩ := tryAlts_sound _ _ _ _ h
  obtain ⟨a2, _, r2, hd2, h2⟩ := tryAlts_sound _ _ _ _ h1
  obtain ⟨b, hb, htail⟩ := litTail_sound _ _ _ _ h2
  refine ⟨a1 ++ a2, b, ?_, htail⟩
  rw [dropLit_eq _ _ _ hd1, dropLit_eq _ _ _ hd2, hb]
  simp [List.append_assoc]

theorem shapeMatchN_sound (lit : List Char)
    (tail : List Char → Option (List Char)) (s g : List Char)
    (h : shapeMatchN lit tail s = some g) :
    ∃ a b, s = a ++ lit ++ b ∧ tail b = some g := by
  unfold shapeMatchN at h
  obtain ⟨a1, _, r1, hd1, h1⟩ := tryAlts_sound _ _ _ _ h
  obtain ⟨b, hb, htail⟩ := litTail_sound _ _ _ _ h1
  refine ⟨a1, b, ?_, htail⟩
  rw [dropLit_eq _ _ _ hd1, hb]
  simp [List.append_assoc]

theorem tryAlts_cons_some (a : List Char) (more : List (List Char))
    (k : List Char → Option (List Char)) (s : List Char) {r : List Char}
    (g : List Char) (hd : dropLit a s = some r) (hk : k r = some g) :
    tryAlts (a :: more) k s = some g := by
  simp only [tryAlts, hd, hk]

theorem tryAlts_cons_fail (a : List Char) (more : List (List Char))
    (k : List Char → Option (List Char)) (s : List Char)
    (hd : dropLit a s = none) :
    tryAlts (a :: more) k s = tryAlts more k s := by
  simp only [tryAlts, hd]

theorem scanFrom_sound (m : List Char → Option (List Char)) :
    ∀ (s g : List Char), scanFrom m s = some g →
      ∃ p t, s = p ++ t ∧ m t = some g := by
  intro s
  induction s with
  | nil =>
      intro g h
      exact ⟨[], [], rfl, h⟩
  | cons c rest ih =>
      intro g h
      simp only [scanFrom] at h
      cases hm : m (c :: rest) with
      | some g2 =>
          rw [hm] at h
          obtain rfl : g2 = g := by simpa using h
          exact ⟨[], c :: rest, rfl, hm⟩
      | none =>
          rw [hm] at h
          obtain ⟨p, t, hpt, hmt⟩ := ih g h
          exact ⟨c :: p, t, by simp [hpt], hmt⟩

theorem scanFrom_pos (m : List Char → Option (List Char)) (s g : List Char)
    (h : m s = some g) : scanFrom m s = some g := by
  cases s with
  | nil => exact h
  | cons c rest => simp [scanFrom, h]

/-- C9 invariant: whatever branch of `extract_video_id` produces a
result, the result is an 11-character string over the ID alphabet. -/
theorem extractList_valid (s r : List Char) (h : extractList s = some r) :
    r.length = 11 ∧ ∀ c ∈ r, isIdChar c = true := by
  simp only [extractList] at h
  have bare_case : bareIdMatch (pyStrip s) = true →
      pyStrip s = r → r.length = 11 ∧ ∀ c ∈ r, isIdChar c = true := by
    intro hb he
    rw [he] at hb
    unfold bareIdMatch at hb
    simp only [Bool.and_eq_true, beq_iff_eq, List.all_eq_true] at hb
    exact ⟨hb.1, fun c hc => hb.2 c hc⟩
  have group_case : ∀ t : List Char, (∃ b, takeGroup 11 b = some r) →
      r.length = 11 ∧ ∀ c ∈ r, isIdChar c = true := by
    intro _ ⟨b, hb⟩
    obtain ⟨hlen, hall, _⟩ := takeGroup_sound 11 b r hb
    exact ⟨hlen, hall⟩
  split at h
  · exact bare_case (by assumption) (by simpa using h)
  · cases h1 : scanFrom matchWatchAt (pyStrip s) with
    | some g =>
        rw [h1] at h
        obtain rfl : g = r := by simpa using h
        obtain ⟨_, t, _, hm⟩ := scanFrom_sound _ _ _ h1
        obtain ⟨_, b, _, htail⟩ := shapeMatchW_sound _ _ _ _ hm
        exact group_case t (findLastVEq_sound _ _ htail)
    | none =>
        rw [h1] at h
        cases h2 : scanFrom matchYoutuBeAt (pyStrip s) with
        | some g =>
            rw [h2] at h
            obtain rfl : g = r := by simpa using h
            obtain ⟨_, t, _, hm⟩ := scanFrom_sound _ _ _ h2
            obtain ⟨_, b, _, htail⟩ := shapeMatchN_sound _ _ _ _ hm
            exact group_case t ⟨b, htail⟩
        | none =>
            rw [h2] at h
            cases h3 : scanFrom matchShortsAt (pyStrip s) with
            | some g =>
                rw [h3] at h
                obtain rfl : g = r := by simpa using h
                obtain ⟨_, t, _, hm⟩ := scanFrom_sound _ _ _ h3
                obtain ⟨_, b, _, htail⟩ := shapeMatchW_sound _ _ _ _ hm
                exact group_case t ⟨b, htail⟩
            | none =>
                rw [h3] at h
                cases h4 : scanFrom matchEmbedAt (pyStrip s) with
                | some g =>
                    rw [h4] at h
                    obtain rfl : g = r := by simpa using h
                    obtain ⟨_, t, _, hm⟩ := scanFrom_sound _ _ _ h4
                    obtain ⟨_, b, _, htail⟩ := shapeMatchW_sound _ _ _ _ hm
                    exact group_case t ⟨b, htail⟩
                | none =>
                    rw [h4] at h
                    cases h5 : scanFrom matchLiveAt (pyStrip s) with
                    | some g =>
                        rw [h5] at h
                        obtain rfl : g = r := by simpa using h
                        obtain ⟨_, t, _, hm⟩ := scanFrom_sound _ _ _ h5
                        obtain ⟨_, b, _, htail⟩ := shapeMatchW_sound _ _ _ _ hm
                        exact group_case t ⟨b, htail⟩
                    | none =>
                        rw [h5] at h
                        exact absurd h (by simp)

/-- C9: a returned video ID is always exactly 11 characters over
`[A-Za-z0-9_-]`; and a URL whose ID segment carries more than 11
consecutive ID characters does not fail — the first 11 are returned. -/
theorem C9_result_well_formed :
    (∀ (s r : String), extract_video_id s = some r →
      r.length = 11 ∧ ∀ c ∈ r.data, isIdChar c = true) ∧
    extract_video_id "https://youtu.be/abcdefghijkLMNOP" = some "abcdefghijk" := by
  constructor
  · intro s r h
    unfold extract_video_id at h
    cases he : extractList s.data with
    | none => rw [he] at h; exact absurd h (by simp)
    | some l =>
        rw [he] at h
        have hr : r = String.mk l := by
          simpa using h.symm
        obtain ⟨hlen, hall⟩ := extractList_valid s.data l he
        subst hr
        exact ⟨hlen, hall⟩
  · decide

/-- C9 witness: the invariant applied to a concrete successful
extraction. -/
theorem C9_result_well_formed_witness :
    extract_video_id "dQw4w9WgXcQ" = some "dQw4w9WgXcQ" ∧
    ("dQw4w9WgXcQ" : String).length = 11 ∧
    ∀ c ∈ ("dQw4w9WgXcQ" : String).data, isIdChar c = true :=
  ⟨by decide, C9_result_well_formed.1 "dQw4w9WgXcQ" "dQw4w9WgXcQ" (by decide)⟩

/-! Template machinery for C7.

A URL family `A ++ v ++ B` with concrete `A`, `B` and an arbitrary
11-character ID `v` is abstracted into a template: a list of cells that
are either a fixed character or a wildcard standing for some ID
character.  Non-occurrence of a pattern literal anywhere in such a
family, and absence of any stray `v=<11 ID chars>` match, are then
decidable checks on the template. -/

/-- A template cell: `some c` is the fixed character `c`; `none` stands
for an arbitrary character of the ID class. -/
inductive Inst : List (Option Char) → List Char → Prop
  | nil : Inst [] []
  | fixed (c : Char) {t s} : Inst t s → Inst (some c :: t) (c :: s)
  | wild (c : Char) {t s} : isIdChar c = true → Inst t s → Inst (none :: t) (c :: s)

/-- Can a pattern character `c` stand at a given cell? -/
def cellOK : Option Char → Char → Bool
  | some d, c => d == c
  | none, c => isIdChar c

/-- Can the literal characters fit at the head of the template, for
some instantiation of the wildcards? -/
def litFits : List Char → List (Option Char) → Bool
  | [], _ => true
  | _ :: _, [] => false
  | c :: l, cell :: t => cellOK cell c && litFits l t

/-- The literal fits at no position of the template. -/
def noOccur (lit : List Char) : List (Option Char) → Bool
  | [] => !litFits lit []
  | cell :: t => !litFits lit (cell :: t) && noOccur lit t

/-- Predicate: `lit` occurs as a contiguous substring of `s`. -/
def occursIn (lit s : List Char) : Prop := ∃ a b, s = a ++ lit ++ b

theorem inst_cons_inv {cell : Option Char} {t : List (Option Char)} {c : Char}
    {s : List Char} (h : Inst (cell :: t) (c :: s)) :
    Inst t s ∧ cellOK cell c = true := by
  cases h with
  | fixed _ h2 => exact ⟨h2, by simp [cellOK]⟩
  | wild _ hid h2 => exact ⟨h2, by simp [cellOK, hid]⟩

theorem litFits_of_inst : ∀ (lit : List Char) (tmpl : List (Option Char))
    (s b : List Char), Inst tmpl s → s = lit ++ b → litFits lit tmpl = true := by
  intro lit
  induction lit with
  | nil => intro tmpl s b _ _; rfl
  | cons c l ih =>
      intro tmpl s b hinst hs
      subst hs
      rw [List.cons_append] at hinst
      cases tmpl with
      | nil => exact (nomatch hinst)
      | cons cell t =>
          obtain ⟨hrest, hcell⟩ := inst_cons_inv hinst
          simp only [litFits, Bool.and_eq_true]
          exact ⟨hcell, ih t (l ++ b) b hrest rfl⟩

theorem noOccur_sound : ∀ (tmpl : List (Option Char)) (lit s : List Char),
    noOccur lit tmpl = true → Inst tmpl s → ¬ occursIn lit s := by
  intro tmpl
  induction tmpl with
  | nil =>
      intro lit s hno hinst hocc
      cases hinst
      obtain ⟨a, b, hab⟩ := hocc
      have ha : a = [] := by
        cases a with
        | nil => rfl
        | cons x xs => simp at hab
      subst ha
      simp only [List.nil_append] at hab
      have := litFits_of_inst lit [] [] b Inst.nil hab
      simp only [noOccur, this] at hno
      exact absurd hno (by simp)
  | cons cell t ih =>
      intro lit s hno hinst hocc
      simp only [noOccur, Bool.and_eq_true, Bool.not_eq_true'] at hno
      obtain ⟨a, b, hab⟩ := hocc
      cases a with
      | nil =>
          simp only [List.nil_append] at hab
          have := litFits_of_inst lit (cell :: t) s b hinst hab
          rw [this] at hno
          exact absurd hno.1 (by simp)
      | cons x xs =>
          subst hab
          rw [List.append_assoc, List.cons_append] at hinst
          obtain ⟨hrest, _⟩ := inst_cons_inv hinst
          exact ih lit _ hno.2 hrest ⟨xs, b, by rw [List.append_assoc]⟩

/-- Can a cell hold some ID-class character? -/
def cellPossiblyId : Option Char → Bool
  | some d => isIdChar d
  | none => true

/-- Could `takeGroup n` succeed on some instantiation of this
template? -/
def groupFits : Nat → List (Option Char) → Bool
  | 0, _ => true
  | _ + 1, [] => false
  | n + 1, cell :: t => cellPossiblyId cell && groupFits n t

/-- Could `vEqHead` succeed on some instantiation of this template? -/
def headVEqFits : List (Option Char) → Bool
  | cell1 :: cell2 :: rest => cellOK cell1 'v' && cellOK cell2 '=' && groupFits 11 rest
  | _ => false

/-- Could `findLastVEq` succeed on some instantiation of this
template? (`true` guarantees failure on every instantiation.) -/
def noVEqMatch : List (Option Char) → Bool
  | [] => true
  | cell :: rest =>
      if cell = some '\n' then true
      else !headVEqFits (cell :: rest) && noVEqMatch rest

theorem cellPossiblyId_of (cell : Option Char) (c : Char)
    (h1 : cellOK cell c = true) (h2 : isIdChar c = true) :
    cellPossiblyId cell = true := by
  cases cell with
  | none => rfl
  | some d =>
      simp only [cellOK, beq_iff_eq] at h1
      simp [cellPossiblyId, h1, h2]

theorem groupFits_of_inst : ∀ (n : Nat) (tmpl : List (Option Char))
    (s g : List Char), Inst tmpl s → takeGroup n s = some g →
      groupFits n tmpl = true := by
  intro n
  induction n with
  | zero => intro tmpl s g _ _; rfl
  | succ n ih =>
      intro tmpl s g hinst htake
      cases s with
      | nil => exact absurd htake (by simp [takeGroup])
      | cons c s2 =>
          simp only [takeGroup] at htake
          split at htake
          · rename_i hid
            cases hg : takeGroup n s2 with
            | none => rw [hg] at htake; exact absurd htake (by simp)
            | some g2 =>
                cases tmpl with
                | nil => exact (nomatch hinst)
                | cons cell t =>
                    obtain ⟨hrest, hcell⟩ := inst_cons_inv hinst
                    simp only [groupFits, Bool.and_eq_true]
                    exact ⟨cellPossiblyId_of cell c hcell hid,
                      ih t s2 g2 hrest hg⟩
          · exact absurd htake (by simp)

theorem vEqHead_fits (tmpl : List (Option Char)) (s g : List Char)
    (hinst : Inst tmpl s) (h : vEqHead s = some g) : headVEqFits tmpl = true := by
  unfold vEqHead at h
  split at h
  · rename_i rest
    cases tmpl with
    | nil => exact (nomatch hinst)
    | cons cell1 t1 =>
        obtain ⟨h1, hc1⟩ := inst_cons_inv hinst
        cases t1 with
        | nil => exact (nomatch h1)
        | cons cell2 t2 =>
            obtain ⟨h2, hc2⟩ := inst_cons_inv h1
            simp only [headVEqFits, Bool.and_eq_true]
            exact ⟨⟨hc1, hc2⟩, groupFits_of_inst 11 t2 rest g h2 h⟩
  · exact absurd h (by simp)

theorem noVEqMatch_sound : ∀ (tmpl : List (Option Char)) (s : List Char),
    noVEqMatch tmpl = true → Inst tmpl s → findLastVEq s = none := by
  intro tmpl
  induction tmpl with
  | nil =>
      intro s _ hinst
      cases hinst
      rfl
  | cons cell t ih =>
      intro s hno hinst
      cases s with
      | nil => exact (nomatch hinst)
      | cons c s2 =>
          obtain ⟨hrest, hcell⟩ := inst_cons_inv hinst
          by_cases hcnl : cell = some '\n'
          · subst hcnl
            have hc : c = '\n' :=
              (eq_of_beq (show ('\n' == c) = true from hcell)).symm
            subst hc
            simp [findLastVEq]
          · have hno2 : (!headVEqFits (cell :: t) && noVEqMatch t) = true := by
              unfold noVEqMatch at hno
              rwa [if_neg hcnl] at hno
            simp only [Bool.and_eq_true, Bool.not_eq_true'] at hno2
            have hcne : c ≠ '\n' := by
              intro hc
              subst hc
              cases cell with
              | none => exact absurd hcell (by decide)
              | some d =>
                  simp only [cellOK, beq_iff_eq] at hcell
                  exact hcnl (by rw [hcell])
            simp only [findLastVEq, if_neg hcne]
            rw [ih s2 hno2.2 hrest]
            cases hv : vEqHead (c :: s2) with
            | none => rfl
            | some g =>
                have := vEqHead_fits (cell :: t) (c :: s2) g hinst hv
                rw [this] at hno2
                exact absurd hno2.1 (by simp)

/-- The template of the URL family `A ++ v ++ B` for an arbitrary
11-character ID `v`. -/
def tmplOf (A B : List Char) : List (Option Char) :=
  A.map some ++ List.replicate 11 none ++ B.map some

theorem inst_map_some : ∀ (l : List Char), Inst (l.map some) l := by
  intro l
  induction l with
  | nil => exact Inst.nil
  | cons c cs ih => exact Inst.fixed c ih

theorem inst_append : ∀ {t1 s1 t2 s2}, Inst t1 s1 → Inst t2 s2 →
    Inst (t1 ++ t2) (s1 ++ s2) := by
  intro t1 s1 t2 s2 h1 h2
  induction h1 with
  | nil => exact h2
  | fixed c _ ih => exact Inst.fixed c ih
  | wild c hid _ ih => exact Inst.wild c hid ih

theorem inst_wilds : ∀ (v : List Char), (∀ c ∈ v, isIdChar c = true) →
    Inst (List.replicate v.length none) v := by
  intro v
  induction v with
  | nil => intro _; exact Inst.nil
  | cons c cs ih =>
      intro hall
      exact Inst.wild c (hall c (List.mem_cons_self c cs))
        (ih (fun x hx => hall x (List.mem_cons_of_mem c hx)))

theorem inst_tmplOf (A B v : List Char) (hv1 : v.length = 11)
    (hv2 : ∀ c ∈ v, isIdChar c = true) : Inst (tmplOf A B) (A ++ v ++ B) := by
  unfold tmplOf
  rw [← hv1]
  exact inst_append (inst_append (inst_map_some A) (inst_wilds v hv2))
    (inst_map_some B)

theorem occursIn_of_suffix (lit p t : List Char) (h : occursIn lit t) :
    occursIn lit (p ++ t) := by
  obtain ⟨a, b, hab⟩ := h
  exact ⟨p ++ a, b, by simp [hab, List.append_assoc]⟩

/-- If a pattern's fixed literal cannot occur anywhere in the URL
family, `re.search` with that pattern fails on every member
(`www.`-variant). -/
theorem scanShapeW_none (lit : List Char)
    (tail : List Char → Option (List Char)) (A B v : List Char)
    (hv1 : v.length = 11) (hv2 : ∀ c ∈ v, isIdChar c = true)
    (hno : noOccur lit (tmplOf A B) = true) :
    scanFrom (shapeMatchW lit tail) (A ++ v ++ B) = none := by
  cases h : scanFrom (shapeMatchW lit tail) (A ++ v ++ B) with
  | none => rfl
  | some g =>
      exfalso
      obtain ⟨p, t, hpt, hm⟩ := scanFrom_sound _ _ _ h
      obtain ⟨a, b, hab, _⟩ := shapeMatchW_sound _ _ _ _ hm
      have hocc : occursIn lit (A ++ v ++ B) := by
        rw [hpt]
        exact occursIn_of_suffix lit p t ⟨a, b, by simpa [List.append_assoc] using hab⟩
      exact noOccur_sound (tmplOf A B) lit (A ++ v ++ B) hno
        (inst_tmplOf A B v hv1 hv2) hocc

/-- Variant of `scanShapeW_none` for the pattern without a `www.`
group. -/
theorem scanShapeN_none (lit : List Char)
    (tail : List Char → Option (List Char)) (A B v : List Char)
    (hv1 : v.length = 11) (hv2 : ∀ c ∈ v, isIdChar c = true)
    (hno : noOccur lit (tmplOf A B) = true) :
    scanFrom (shapeMatchN lit tail) (A ++ v ++ B) = none := by
  cases h : scanFrom (shapeMatchN lit tail) (A ++ v ++ B) with
  | none => rfl
  | some g =>
      exfalso
      obtain ⟨p, t, hpt, hm⟩ := scanFrom_sound _ _ _ h
      obtain ⟨a, b, hab, _⟩ := shapeMatchN_sound _ _ _ _ hm
      have hocc : occursIn lit (A ++ v ++ B) := by
        rw [hpt]
        exact occursIn_of_suffix lit p t ⟨a, b, by simpa [List.append_assoc] using hab⟩
      exact noOccur_sound (tmplOf A B) lit (A ++ v ++ B) hno
        (inst_tmplOf A B v hv1 hv2) hocc

theorem scanWatch_none (A B v : List Char) (hv1 : v.length = 11)
    (hv2 : ∀ c ∈ v, isIdChar c = true)
    (hno : noOccur litWatch (tmplOf A B) = true) :
    scanFrom matchWatchAt (A ++ v ++ B) = none :=
  scanShapeW_none litWatch findLastVEq A B v hv1 hv2 hno

theorem scanYoutuBe_none (A B v : List Char) (hv1 : v.length = 11)
    (hv2 : ∀ c ∈ v, isIdChar c = true)
    (hno : noOccur litYoutuBe (tmplOf A B) = true) :
    scanFrom matchYoutuBeAt (A ++ v ++ B) = none :=
  scanShapeN_none litYoutuBe (takeGroup 11) A B v hv1 hv2 hno

theorem scanShorts_none (A B v : List Char) (hv1 : v.length = 11)
    (hv2 : ∀ c ∈ v, isIdChar c = true)
    (hno : noOccur litShorts (tmplOf A B) = true) :
    scanFrom matchShortsAt (A ++ v ++ B) = none :=
  scanShapeW_none litShorts (takeGroup 11) A B v hv1 hv2 hno

theorem scanEmbed_none (A B v : List Char) (hv1 : v.length = 11)
    (hv2 : ∀ c ∈ v, isIdChar c = true)
    (hno : noOccur litEmbed (tmplOf A B) = true) :
    scanFrom matchEmbedAt (A ++ v ++ B) = none :=
  scanShapeW_none litEmbed (takeGroup 11) A B v hv1 hv2 hno

/-! Strip and bare-ID facts for the URL families. -/

/-- The head of the list, if any, is not whitespace. -/
def headNotSpace : List Char → Bool
  | [] => true
  | c :: _ => !isPySpace c

theorem id_not_space (c : Char) (h : isIdChar c = true) : isPySpace c = false := by
  cases hs : isPySpace c with
  | false => rfl
  | true =>
      exfalso
      simp only [isPySpace, Bool.or_eq_true, beq_iff_eq] at hs
      rcases hs with ((((hs | hs) | hs) | hs) | hs) | hs <;> subst hs <;>
        exact absurd h (by decide)

theorem dropWhile_of_headNotSpace (l : List Char) (h : headNotSpace l = true) :
    l.dropWhile isPySpace = l := by
  cases l with
  | nil => rfl
  | cons c cs =>
      simp only [headNotSpace, Bool.not_eq_true'] at h
      simp [List.dropWhile, h]

theorem pyStrip_eq_self (s : List Char) (h1 : headNotSpace s = true)
    (h2 : headNotSpace s.reverse = true) : pyStrip s = s := by
  unfold pyStrip
  rw [dropWhile_of_headNotSpace s h1, dropWhile_of_headNotSpace s.reverse h2,
    List.reverse_reverse]

theorem headNotSpace_append (x r : List Char) (hx : x ≠ [])
    (h : headNotSpace x = true) : headNotSpace (x ++ r) = true := by
  cases x with
  | nil => exact absurd rfl hx
  | cons c cs => exact h

theorem headNotSpace_of_id (v r : List Char) (hv : ∀ c ∈ v, isIdChar c = true)
    (hne : v ≠ []) : headNotSpace (v ++ r) = true := by
  cases v with
  | nil => exact absurd rfl hne
  | cons c cs =>
      simp only [List.cons_append, headNotSpace, Bool.not_eq_true']
      exact id_not_space c (hv c (List.mem_cons_self c cs))

theorem bareIdMatch_false (A B v : List Char) (hA : A ≠ [])
    (hv1 : v.length = 11) : bareIdMatch (A ++ v ++ B) = false := by
  have hlen : (A ++ v ++ B).length ≠ 11 := by
    simp only [List.length_append, hv1]
    cases A with
    | nil => exact absurd rfl hA
    | cons c cs => simp only [List.length_cons]; omega
  simp only [bareIdMatch, beq_eq_false_iff_ne.mpr hlen, Bool.false_and]

theorem extract_mk (l : List Char) :
    extract_video_id (String.mk l) = (extractList l).map String.mk := rfl

theorem bareIdMatch_true (v : List Char) (hv1 : v.length = 11)
    (hv2 : ∀ c ∈ v, isIdChar c = true) : bareIdMatch v = true := by
  simp only [bareIdMatch, Bool.and_eq_true, beq_iff_eq, List.all_eq_true]
  exact ⟨hv1, fun c hc => hv2 c hc⟩

theorem v_ne_nil (v : List Char) (hv1 : v.length = 11) : v ≠ [] := by
  intro h
  rw [h] at hv1
  exact absurd hv1 (by decide)

theorem headNotSpace_of_id_list (v : List Char)
    (hv : ∀ c ∈ v, isIdChar c = true) (hne : v ≠ []) :
    headNotSpace v = true := by
  cases v with
  | nil => exact absurd rfl hne
  | cons c cs =>
      simp only [headNotSpace, Bool.not_eq_true']
      exact id_not_space c (hv c (List.mem_cons_self c cs))

theorem dropWhile_all_append (a b : List Char)
    (ha : ∀ c ∈ a, isPySpace c = true) :
    (a ++ b).dropWhile isPySpace = b.dropWhile isPySpace := by
  induction a with
  | nil => rfl
  | cons c cs ih =>
      rw [List.cons_append, List.dropWhile_cons_of_pos
        (by simp [ha c (List.mem_cons_self c cs)])]
      exact ih (fun x hx => ha x (List.mem_cons_of_mem c hx))

theorem pyStrip_ws (ws1 ws2 v : List Char)
    (h1 : ∀ c ∈ ws1, isPySpace c = true) (h2 : ∀ c ∈ ws2, isPySpace c = true)
    (hv : ∀ c ∈ v, isIdChar c = true) (hne : v ≠ []) :
    pyStrip (ws1 ++ v ++ ws2) = v := by
  unfold pyStrip
  rw [List.append_assoc, dropWhile_all_append ws1 (v ++ ws2) h1,
      dropWhile_of_headNotSpace (v ++ ws2)
        (headNotSpace_of_id v ws2 hv hne),
      List.reverse_append, dropWhile_all_append ws2.reverse v.reverse
        (fun c hc => h2 c (List.mem_reverse.mp hc)),
      dropWhile_of_headNotSpace v.reverse
        (headNotSpace_of_id_list v.reverse
          (fun c hc => hv c (List.mem_reverse.mp hc)) (by simpa using hne)),
      List.reverse_reverse]

theorem revHeadNotSpace_concrete (A v B : List Char)
    (hB : headNotSpace B.reverse = true) (hBne : B ≠ []) :
    headNotSpace (A ++ v ++ B).reverse = true := by
  rw [List.reverse_append]
  exact headNotSpace_append B.reverse (A ++ v).reverse (by simpa using hBne) hB

theorem revHeadNotSpace_nil (A v : List Char)
    (hv : ∀ c ∈ v, isIdChar c = true) (hne : v ≠ []) :
    headNotSpace (A ++ v ++ ([] : List Char)).reverse = true := by
  rw [List.append_nil, List.reverse_append]
  exact headNotSpace_append v.reverse A.reverse (by simpa using hne)
    (headNotSpace_of_id_list v.reverse
      (fun c hc => hv c (List.mem_reverse.mp hc)) (by simpa using hne))

theorem findLastVEq_eq_tail_none (v B : List Char) (hv1 : v.length = 11)
    (hv2 : ∀ c ∈ v, isIdChar c = true)
    (hchk : noVEqMatch (some '=' :: (List.replicate 11 none ++ B.map some)) = true) :
    findLastVEq ('=' :: (v ++ B)) = none := by
  apply noVEqMatch_sound _ _ hchk
  have h := inst_append (inst_wilds v hv2) (inst_map_some B)
  rw [hv1] at h
  exact Inst.fixed '=' h

theorem findLastVEq_complete (v B : List Char) (hv1 : v.length = 11)
    (hv2 : ∀ c ∈ v, isIdChar c = true)
    (hnone : findLastVEq ('=' :: (v ++ B)) = none) :
    findLastVEq ('v' :: '=' :: (v ++ B)) = some v := by
  have h1 : findLastVEq ('v' :: '=' :: (v ++ B)) =
      match findLastVEq ('=' :: (v ++ B)) with
      | some g => some g
      | none => vEqHead ('v' :: '=' :: (v ++ B)) := by
    simp [findLastVEq]
  rw [h1, hnone]
  show takeGroup 11 (v ++ B) = some v
  rw [← hv1]
  exact takeGroup_complete v B hv2

/-! The five branches of `extract_video_id` on a URL-shaped input
`A ++ v ++ B`: the earlier patterns are excluded by the template check,
the pattern of the shape itself fires at position 0. -/

theorem extractList_watch (A B v : List Char)
    (hv1 : v.length = 11) (_hv2 : ∀ c ∈ v, isIdChar c = true)
    (h1 : headNotSpace (A ++ v ++ B) = true)
    (h2 : headNotSpace (A ++ v ++ B).reverse = true)
    (hA : A ≠ [])
    (hpos : matchWatchAt (A ++ v ++ B) = some v) :
    extractList (A ++ v ++ B) = some v := by
  simp only [extractList]
  rw [pyStrip_eq_self _ h1 h2, bareIdMatch_false A B v hA hv1]
  simp only [Bool.false_eq_true, if_false]
  rw [scanFrom_pos _ _ _ hpos]

theorem extractList_youtuBe (A B v : List Char)
    (hv1 : v.length = 11) (hv2 : ∀ c ∈ v, isIdChar c = true)
    (h1 : headNotSpace (A ++ v ++ B) = true)
    (h2 : headNotSpace (A ++ v ++ B).reverse = true)
    (hA : A ≠ [])
    (hw : noOccur litWatch (tmplOf A B) = true)
    (hpos : matchYoutuBeAt (A ++ v ++ B) = some v) :
    extractList (A ++ v ++ B) = some v := by
  simp only [extractList]
  rw [pyStrip_eq_self _ h1 h2, bareIdMatch_false A B v hA hv1]
  simp only [Bool.false_eq_true, if_false]
  rw [scanWatch_none A B v hv1 hv2 hw, scanFrom_pos _ _ _ hpos]

theorem extractList_shorts (A B v : List Char)
    (hv1 : v.length = 11) (hv2 : ∀ c ∈ v, isIdChar c = true)
    (h1 : headNotSpace (A ++ v ++ B) = true)
    (h2 : headNotSpace (A ++ v ++ B).reverse = true)
    (hA : A ≠ [])
    (hw : noOccur litWatch (tmplOf A B) = true)
    (hy : noOccur litYoutuBe (tmplOf A B) = true)
    (hpos : matchShortsAt (A ++ v ++ B) = some v) :
    extractList (A ++ v ++ B) = some v := by
  simp only [extractList]
  rw [pyStrip_eq_self _ h1 h2, bareIdMatch_false A B v hA hv1]
  simp only [Bool.false_eq_true, if_false]
  rw [scanWatch_none A B v hv1 hv2 hw, scanYoutuBe_none A B v hv1 hv2 hy,
    scanFrom_pos _ _ _ hpos]

theorem extractList_embed (A B v : List Char)
    (hv1 : v.length = 11) (hv2 : ∀ c ∈ v, isIdChar c = true)
    (h1 : headNotSpace (A ++ v ++ B) = true)
    (h2 : headNotSpace (A ++ v ++ B).reverse = true)
    (hA : A ≠ [])
    (hw : noOccur litWatch (tmplOf A B) = true)
    (hy : noOccur litYoutuBe (tmplOf A B) = true)
    (hs : noOccur litShorts (tmplOf A B) = true)
    (hpos : matchEmbedAt (A ++ v ++ B) = some v) :
    extractList (A ++ v ++ B) = some v := by
  simp only [extractList]
  rw [pyStrip_eq_self _ h1 h2, bareIdMatch_false A B v hA hv1]
  simp only [Bool.false_eq_true, if_false]
  rw [scanWatch_none A B v hv1 hv2 hw, scanYoutuBe_none A B v hv1 hv2 hy,
    scanShorts_none A B v hv1 hv2 hs, scanFrom_pos _ _ _ hpos]

theorem extractList_live (A B v : List Char)
    (hv1 : v.length = 11) (hv2 : ∀ c ∈ v, isIdChar c = true)
    (h1 : headNotSpace (A ++ v ++ B) = true)
    (h2 : headNotSpace (A ++ v ++ B).reverse = true)
    (hA : A ≠ [])
    (hw : noOccur litWatch (tmplOf A B) = true)
    (hy : noOccur litYoutuBe (tmplOf A B) = true)
    (hs : noOccur litShorts (tmplOf A B) = true)
    (he : noOccur litEmbed (tmplOf A B) = true)
    (hpos : matchLiveAt (A ++ v ++ B) = some v) :
    extractList (A ++ v ++ B) = some v := by
  simp only [extractList]
  rw [pyStrip_eq_self _ h1 h2, bareIdMatch_false A B v hA hv1]
  simp only [Bool.false_eq_true, if_false]
  rw [scanWatch_none A B v hv1 hv2 hw, scanYoutuBe_none A B v hv1 hv2 hy,
    scanShorts_none A B v hv1 hv2 hs, scanEmbed_none A B v hv1 hv2 he,
    scanFrom_pos _ _ _ hpos]

/-! The URL families of C7: each supported shape, with and without
protocol and `www.`, optionally followed by extra query parameters. -/

def watchPre : List (List Char) :=
  ["https://www.youtube.com/watch?v=".data, "http://www.youtube.com/watch?v=".data,
   "www.youtube.com/watch?v=".data, "https://youtube.com/watch?v=".data,
   "http://youtube.com/watch?v=".data, "youtube.com/watch?v=".data]

def watchSuf : List (List Char) := [[], "&t=120".data, "&si=9-_x".data]

def youtuBePre : List (List Char) :=
  ["https://youtu.be/".data, "http://youtu.be/".data, "youtu.be/".data]

def shortsPre : List (List Char) :=
  ["https://www.youtube.com/shorts/".data, "http://www.youtube.com/shorts/".data,
   "www.youtube.com/shorts/".data, "https://youtube.com/shorts/".data,
   "http://youtube.com/shorts/".data, "youtube.com/shorts/".data]

def embedPre : List (List Char) :=
  ["https://www.youtube.com/embed/".data, "http://www.youtube.com/embed/".data,
   "www.youtube.com/embed/".data, "https://youtube.com/embed/".data,
   "http://youtube.com/embed/".data, "youtube.com/embed/".data]

def livePre : List (List Char) :=
  ["https://www.youtube.com/live/".data, "http://www.youtube.com/live/".data,
   "www.youtube.com/live/".data, "https://youtube.com/live/".data,
   "http://youtube.com/live/".data, "youtube.com/live/".data]

def urlSuf : List (List Char) := [[], "?t=120".data, "?si=9-_x".data]

set_option maxHeartbeats 4000000 in
/-- C7: on every supported URL shape carrying a valid 11-character ID
`v` (watch, youtu.be, shorts, embed, live; with or without protocol and
`www.`; optionally followed by extra query parameters),
`extract_video_id` returns exactly `v`; on a bare ID surrounded by
optional whitespace it is the identity after trimming; and an input
whose stripped form matches the bare-ID pattern short-circuits all URL
pattern checks. -/
theorem C7_extract_url_shapes :
    (∀ (v ws1 ws2 : List Char), v.length = 11 →
        (∀ c ∈ v, isIdChar c = true) →
        (∀ c ∈ ws1, isPySpace c = true) → (∀ c ∈ ws2, isPySpace c = true) →
        extract_video_id (String.mk (ws1 ++ v ++ ws2)) = some (String.mk v)) ∧
    (∀ s : String, bareIdMatch (pyStrip s.data) = true →
        extract_video_id s = some (String.mk (pyStrip s.data))) ∧
    (∀ A ∈ watchPre, ∀ B ∈ watchSuf, ∀ v : List Char, v.length = 11 →
        (∀ c ∈ v, isIdChar c = true) →
        extract_video_id (String.mk (A ++ v ++ B)) = some (String.mk v)) ∧
    (∀ A ∈ youtuBePre, ∀ B ∈ urlSuf, ∀ v : List Char, v.length = 11 →
        (∀ c ∈ v, isIdChar c = true) →
        extract_video_id (String.mk (A ++ v ++ B)) = some (String.mk v)) ∧
    (∀ A ∈ shortsPre, ∀ B ∈ urlSuf, ∀ v : List Char, v.length = 11 →
        (∀ c ∈ v, isIdChar c = true) →
        extract_video_id (String.mk (A ++ v ++ B)) = some (String.mk v)) ∧
    (∀ A ∈ embedPre, ∀ B ∈ urlSuf, ∀ v : List Char, v.length = 11 →
        (∀ c ∈ v, isIdChar c = true) →
        extract_video_id (String.mk (A ++ v ++ B)) = some (String.mk v)) ∧
    (∀ A ∈ livePre, ∀ B ∈ urlSuf, ∀ v : List Char, v.length = 11 →
        (∀ c ∈ v, isIdChar c = true) →
        extract_video_id (String.mk (A ++ v ++ B)) = some (String.mk v)) := by
  refine ⟨?_, ?_, ?_, ?_, ?_, ?_, ?_⟩
  · intro v ws1 ws2 hv1 hv2 h1 h2
    rw [extract_mk]
    have hstrip : pyStrip (ws1 ++ v ++ ws2) = v :=
      pyStrip_ws ws1 ws2 v h1 h2 hv2 (v_ne_nil v hv1)
    simp only [extractList]
    rw [hstrip, if_pos (bareIdMatch_true v hv1 hv2)]
    rfl
  · intro s hb
    show (extractList s.data).map String.mk = some (String.mk (pyStrip s.data))
    simp only [extractList]
    rw [if_pos hb]
    rfl
  · intro A hA B hB v hv1 hv2
    have hvne : v ≠ [] := v_ne_nil v hv1
    have ht : takeGroup 11 (v ++ B) = some v := by
      rw [← hv1]; exact takeGroup_complete v B hv2
    simp only [watchPre] at hA
    simp only [watchSuf] at hB
    fin_cases hA <;> fin_cases hB <;>
      (refine (extract_mk _).trans ((congrArg (Option.map String.mk)
          (extractList_watch _ _ v hv1 hv2 ?_ ?_ (by decide) ?_)).trans rfl)
       · exact rfl
       · first
         | exact revHeadNotSpace_concrete _ _ _ (by decide) (by decide)
         | exact revHeadNotSpace_nil _ _ hv2 hvne
       · simp only [matchWatchAt, matchYoutuBeAt, matchShortsAt, matchEmbedAt,
           matchLiveAt, shapeMatchW, shapeMatchN, protoAlts, wwwAlts]
         repeat
           first
           | exact ht
           | exact findLastVEq_complete v _ hv1 hv2
               (findLastVEq_eq_tail_none v _ hv1 hv2 (by decide))
           | (refine (tryAlts_cons_fail _ _ _ _ ?_).trans ?_
              exact rfl)
           | (apply tryAlts_cons_some
              exact rfl
              try simp only []))
  · intro A hA B hB v hv1 hv2
    have hvne : v ≠ [] := v_ne_nil v hv1
    have ht : takeGroup 11 (v ++ B) = some v := by
      rw [← hv1]; exact takeGroup_complete v B hv2
    simp only [youtuBePre] at hA
    simp only [urlSuf] at hB
    fin_cases hA <;> fin_cases hB <;>
      (refine (extract_mk _).trans ((congrArg (Option.map String.mk)
          (extractList_youtuBe _ _ v hv1 hv2 ?_ ?_ (by decide) (by decide) ?_)).trans rfl)
       · exact rfl
       · first
         | exact revHeadNotSpace_concrete _ _ _ (by decide) (by decide)
         | exact revHeadNotSpace_nil _ _ hv2 hvne
       · simp only [matchWatchAt, matchYoutuBeAt, matchShortsAt, matchEmbedAt,
           matchLiveAt, shapeMatchW, shapeMatchN, protoAlts, wwwAlts]
         repeat
           first
           | exact ht
           | (refine (tryAlts_cons_fail _ _ _ _ ?_).trans ?_
              exact rfl)
           | (apply tryAlts_cons_some
              exact rfl
              try simp only []))
  · intro A hA B hB v hv1 hv2
    have hvne : v ≠ [] := v_ne_nil v hv1
    have ht : takeGroup 11 (v ++ B) = some v := by
      rw [← hv1]; exact takeGroup_complete v B hv2
    simp only [shortsPre] at hA
    simp only [urlSuf] at hB
    fin_cases hA <;> fin_cases hB <;>
      (refine (extract_mk _).trans ((congrArg (Option.map String.mk)
          (extractList_shorts _ _ v hv1 hv2 ?_ ?_ (by decide) (by decide) (by decide) ?_)).trans rfl)
       · exact rfl
       · first
         | exact revHeadNotSpace_concrete _ _ _ (by decide) (by decide)
         | exact revHeadNotSpace_nil _ _ hv2 hvne
       · simp only [matchWatchAt, matchYoutuBeAt, matchShortsAt, matchEmbedAt,
           matchLiveAt, shapeMatchW, shapeMatchN, protoAlts, wwwAlts]
         repeat
           first
           | exact ht
           | (refine (tryAlts_cons_fail _ _ _ _ ?_).trans ?_
              exact rfl)
           | (apply tryAlts_cons_some
              exact rfl
              try simp only []))
  · intro A hA B hB v hv1 hv2
    have hvne : v ≠ [] := v_ne_nil v hv1
    have ht : takeGroup 11 (v ++ B) = some v := by
      rw [← hv1]; exact takeGroup_complete v B hv2
    simp only [embedPre] at hA
    simp only [urlSuf] at hB
    fin_cases hA <;> fin_cases hB <;>
      (refine (extract_mk _).trans ((congrArg (Option.map String.mk)
          (extractList_embed _ _ v hv1 hv2 ?_ ?_ (by decide) (by decide) (by decide) (by decide) ?_)).trans rfl)
       · exact rfl
       · first
         | exact revHeadNotSpace_concrete _ _ _ (by decide) (by decide)
         | exact revHeadNotSpace_nil _ _ hv2 hvne
       · simp only [matchWatchAt, matchYoutuBeAt, matchShortsAt, matchEmbedAt,
           matchLiveAt, shapeMatchW, shapeMatchN, protoAlts, wwwAlts]
         repeat
           first
           | exact ht
           | (refine (tryAlts_cons_fail _ _ _ _ ?_).trans ?_
              exact rfl)
           | (apply tryAlts_cons_some
              exact rfl
              try simp only []))
  · intro A hA B hB v hv1 hv2
    have hvne : v ≠ [] := v_ne_nil v hv1
    have ht : takeGroup 11 (v ++ B) = some v := by
      rw [← hv1]; exact takeGroup_complete v B hv2
    simp only [livePre] at hA
    simp only [urlSuf] at hB
    fin_cases hA <;> fin_cases hB <;>
      (refine (extract_mk _).trans ((congrArg (Option.map String.mk)
          (extractList_live _ _ v hv1 hv2 ?_ ?_ (by decide) (by decide) (by decide) (by decide) (by decide) ?_)).trans rfl)
       · exact rfl
       · first
         | exact revHeadNotSpace_concrete _ _ _ (by decide) (by decide)
         | exact revHeadNotSpace_nil _ _ hv2 hvne
       · simp only [matchWatchAt, matchYoutuBeAt, matchShortsAt, matchEmbedAt,
           matchLiveAt, shapeMatchW, shapeMatchN, protoAlts, wwwAlts]
         repeat
           first
           | exact ht
           | (refine (tryAlts_cons_fail _ _ _ _ ?_).trans ?_
              exact rfl)
           | (apply tryAlts_cons_some
              exact rfl
              try simp only []))

/-- C7 witness: the theorem applied to the standard watch URL with
extra query parameters, and to a whitespace-padded bare ID. -/
theorem C7_extract_url_shapes_witness :
    extract_video_id (String.mk ("https://www.youtube.com/watch?v=".data ++
        "dQw4w9WgXcQ".data ++ "&t=120".data)) =
      some (String.mk "dQw4w9WgXcQ".data) ∧
    extract_video_id (String.mk ("  ".data ++ "dQw4w9WgXcQ".data ++ " ".data)) =
      some (String.mk "dQw4w9WgXcQ".data) :=
  ⟨C7_extract_url_shapes.2.2.1 "https://www.youtube.com/watch?v=".data
      (by decide) "&t=120".data (by decide) "dQw4w9WgXcQ".data
      (by decide) (by decide),
    C7_extract_url_shapes.1 "dQw4w9WgXcQ".data "  ".data " ".data
      (by decide) (by decide) (by decide) (by decide)⟩

/-! ### format_transcript.py

Caption segments carry a text, a start offset and a duration; the start
offset is modelled as a rational number (Python floats in this code are
only compared, truncated and divided by constants). -/

structure Segment where
  text : String
  start : ℚ
  duration : ℚ
deriving DecidableEq

/-- Python `int(x)`: truncation toward zero. -/
def pyInt (q : ℚ) : ℤ := if 0 ≤ q then q.floor else -((-q).floor)

/-- Python `f"{n:02d}"`: zero-pad to two digits (a sign counts toward
the width). -/
def pad2 (n : ℤ) : String :=
  if 0 ≤ n ∧ n < 10 then "0" ++ toString n else toString n

/-- Python `str.strip()` on a Lean string. -/
def pyStripStr (s : String) : String := String.mk (pyStrip s.data)

/-- Function `seconds_to_timestamp` from format_transcript.py; `//` and `%` on
Python ints are floor division and the matching modulus, i.e.
`Int.fdiv` and `Int.fmod`. -/
def seconds_to_timestamp (seconds : ℚ) : String :=
  let total := pyInt seconds
  let hrs := Int.fdiv total 3600
  let mins := Int.fdiv (Int.fmod total 3600) 60
  let secs := Int.fmod total 60
  if hrs > 0 then pad2 hrs ++ ":" ++ pad2 mins ++ ":" ++ pad2 secs
  else pad2 mins ++ ":" ++ pad2 secs

/-- Function `format_transcript` from format_transcript.py.  The Python loop
appends `f"[{timestamp}] {text}"` for each segment whose stripped text
is non-empty and joins with newlines; the local variables `timestamp`
and `text` are inlined (they are pure). -/
def format_transcript (transcript_segments : List Segment) : String :=
  if transcript_segments = [] then ""
  else
    String.intercalate "\n" (transcript_segments.foldl
      (fun lines segment =>
        if pyStripStr segment.text ≠ "" then
          lines ++ ["[" ++ seconds_to_timestamp segment.start ++ "] " ++
            pyStripStr segment.text]
        else lines) [])

/-- The line contributed by one segment, if any: used to state the
shape of `format_transcript`'s output. -/
def segLine (segment : Segment) : Option String :=
  if pyStripStr segment.text = "" then none
  else some ("[" ++ seconds_to_timestamp segment.start ++ "] " ++
    pyStripStr segment.text)

/-- Modelled from the spec's words: `MM:SS` when the truncated total is
below one hour, else `HH:MM:SS`, zero-padded, for comparison with the
code's `seconds_to_timestamp` (`/` and `%` are Euclidean here, which
agrees with Python on the non-negative totals the spec describes). -/
def timestampSpec (seconds : ℚ) : String :=
  let total := pyInt seconds
  if total < 3600 then
    pad2 (total / 60) ++ ":" ++ pad2 (total % 60)
  else
    pad2 (total / 3600) ++ ":" ++ pad2 (total % 3600 / 60) ++ ":" ++
      pad2 (total % 60)

theorem format_foldl (segs : List Segment) :
    ∀ acc : List String,
      segs.foldl
        (fun lines segment =>
          if pyStripStr segment.text ≠ "" then
            lines ++ ["[" ++ seconds_to_timestamp segment.start ++ "] " ++
              pyStripStr segment.text]
          else lines) acc
      = acc ++ segs.filterMap segLine := by
  induction segs with
  | nil => intro acc; simp
  | cons s rest ih =>
      intro acc
      simp only [List.foldl_cons, List.filterMap_cons]
      by_cases h : pyStripStr s.text = ""
      · have hs : segLine s = none := by simp [segLine, h]
        rw [if_neg (by simp [h]), ih acc, hs]
      · have hs : segLine s = some ("[" ++ seconds_to_timestamp s.start ++
            "] " ++ pyStripStr s.text) := by simp [segLine, h]
        rw [if_pos (by simp [h]), ih, hs]
        simp

theorem format_transcript_filterMap (segs : List Segment) :
    format_transcript segs = String.intercalate "\n" (segs.filterMap segLine) := by
  unfold format_transcript
  by_cases h : segs = []
  · rw [if_pos h, h]
    rfl
  · rw [if_neg h, format_foldl segs []]
    rfl

theorem seconds_to_timestamp_spec (q : ℚ) (hq : 0 ≤ q) :
    seconds_to_timestamp q = timestampSpec q := by
  have h0 : 0 ≤ pyInt q := by
    unfold pyInt
    rw [if_pos hq]
    exact Rat.le_floor.mpr (by exact_mod_cast hq)
  simp only [seconds_to_timestamp, timestampSpec]
  rw [Int.fdiv_eq_ediv (pyInt q) (by norm_num : (0:ℤ) ≤ 3600),
    Int.fmod_eq_emod (pyInt q) (by norm_num : (0:ℤ) ≤ 3600),
    Int.fdiv_eq_ediv _ (by norm_num : (0:ℤ) ≤ 60),
    Int.fmod_eq_emod _ (by norm_num : (0:ℤ) ≤ 60)]
  by_cases hlt : pyInt q < 3600
  · have hmod : pyInt q % 3600 = pyInt q := by omega
    rw [if_neg (by omega), if_pos hlt, hmod]
  · rw [if_pos (by omega), if_neg hlt]

/-- C8: `format_transcript` emits one line `[timestamp] text` per
segment with non-empty stripped text, in input order, joined by single
newlines; the timestamp is zero-padded `MM:SS` below one hour and
`HH:MM:SS` from one hour on, truncating sub-second precision;
whitespace-only segments contribute nothing and empty input yields the
empty string. -/
theorem C8_format_transcript :
    (∀ segs : List Segment, format_transcript segs =
        String.intercalate "\n" (segs.filterMap segLine)) ∧
    (∀ q : ℚ, 0 ≤ q → seconds_to_timestamp q = timestampSpec q) ∧
    format_transcript [⟨"hi", 65, 2⟩] = "[01:05] hi" ∧
    format_transcript [⟨"hi", 3661, 1⟩] = "[01:01:01] hi" ∧
    seconds_to_timestamp (659 / 10) = "01:05" ∧
    format_transcript [⟨" \t ", 5, 1⟩, ⟨"hi", 65, 2⟩] = "[01:05] hi" ∧
    format_transcript [] = "" :=
  ⟨format_transcript_filterMap, seconds_to_timestamp_spec,
    by decide, by decide,
    by
      rw [show (659 / 10 : ℚ) = ⟨659, 10, by decide, by decide⟩ from by
        rw [Rat.mk'_eq_divInt, Rat.divInt_eq_div]; norm_num]
      decide,
    by decide, by decide⟩

/-- C8 witness: the timestamp shape law applied at 65 seconds. -/
theorem C8_format_transcript_witness :
    (0 : ℚ) ≤ 65 ∧ seconds_to_timestamp 65 = timestampSpec 65 :=
  ⟨by decide, C8_format_transcript.2.1 65 (by decide)⟩

/-! ### index.py: cache store, transcript fetcher, and main

The filesystem state behind one cache entry file is abstracted into a
small state type: the file can be missing, unreadable (`open` raises
`OSError`), corrupt (`json.load` raises `JSONDecodeError`), or a parsed
JSON object whose `cached_at` and `segments` keys may each be absent
(`dict.get` with a default).  Timestamps are integers (seconds). -/

def CACHE_TTL_SECONDS : ℤ := 7 * 24 * 3600

inductive CacheFileState where
  | missing
  | unreadable
  | corrupt
  | entry (cached_at : Option ℤ) (segments : Option (List Segment))
deriving DecidableEq

/-- Function `get_cached_transcript` from index.py: returns the Python result
(`None` or the segment list) together with the cache file state after
the call (`os.remove` on expiry). -/
def get_cached_transcript (now : ℤ) (st : CacheFileState) :
    Option (List Segment) × CacheFileState :=
  match st with
  | .missing => (none, .missing)
  | .unreadable => (none, .unreadable)
  | .corrupt => (none, .corrupt)
  | .entry ca segs =>
      let cached_at := ca.getD 0
      if now - cached_at > CACHE_TTL_SECONDS then (none, .missing)
      else (segs, .entry ca segs)

/-- Result of `save_to_cache`: either a normal return with the
resulting file state, or an uncaught exception (the `os.makedirs` call
sits outside the `try` block, so an `OSError` there propagates). -/
inductive WriteResult where
  | ok (st : CacheFileState)
  | raised
deriving DecidableEq

/-- Function `save_to_cache` from index.py: `makedirsOk` and `writeOk` say
whether `os.makedirs` and the `open`/`json.dump` write succeed.  A
failed write is swallowed (`except OSError: pass`) and leaves the
previous file state; a failed `makedirs` raises. -/
def save_to_cache (makedirsOk writeOk : Bool) (now : ℤ) (_video_id : String)
    (segments : List Segment) (st : CacheFileState) : WriteResult :=
  if makedirsOk then
    if writeOk then .ok (.entry (some now) (some segments))
    else .ok st
  else .raised

/-- Outcome of `api.fetch(video_id, languages=["en"])`: a segment list,
or one of the youtube_transcript_api exceptions, or any other
exception. -/
inductive FetchOutcome where
  | success (segments : List Segment)
  | noTranscriptFound
  | transcriptsDisabled
  | videoUnavailable
  | invalidVideoId
  | requestBlocked
  | ipBlocked
  | otherError
deriving DecidableEq

/-- The provider as seen by one run of `fetch_transcript`: the outcome
of the English fetch, and the transcript listing — `none` when
`api.list` raises, otherwise the provider-ordered list of transcripts,
each carrying the outcome of its own `fetch()` (`none` = raises). -/
structure Provider where
  fetchEnglish : FetchOutcome
  listing : Option (List (Option (List Segment)))
deriving DecidableEq

/-- The user-facing error categories of index.py (`RuntimeError`
messages, plus `Unexpected` for exceptions that escape
`fetch_transcript`). -/
inductive FetchErr where
  | Disabled
  | Unavailable
  | InvalidId
  | Blocked
  | NoCaptions
  | Unexpected
deriving DecidableEq

inductive FetchRes where
  | ok (segments : List Segment)
  | err (e : FetchErr)
deriving DecidableEq

/-- Function `fetch_transcript` from index.py: try English; on
`NoTranscriptFound` list all transcripts and return the first one's
data, with any failure there collapsing to the `NoCaptions` error; the
other library exceptions map to their categories; any other exception
propagates (`Unexpected`). -/
def fetch_transcript (p : Provider) : FetchRes :=
  match p.fetchEnglish with
  | .success segs => .ok segs
  | .transcriptsDisabled => .err .Disabled
  | .videoUnavailable => .err .Unavailable
  | .invalidVideoId => .err .InvalidId
  | .requestBlocked => .err .Blocked
  | .ipBlocked => .err .Blocked
  | .otherError => .err .Unexpected
  | .noTranscriptFound =>
      match p.listing with
      | some (some segs :: _) => .ok segs
      | some (none :: _) => .err .NoCaptions
      | some [] => .err .NoCaptions
      | none => .err .NoCaptions

/-- The world one invocation of `main` runs in. -/
structure World where
  now : ℤ
  cacheState : CacheFileState
  makedirsOk : Bool
  writeOk : Bool
  provider : Provider
deriving DecidableEq

/-- Observable outcome of `main` (exit code 1 cases carry their error
category; success prints either plain text or the chunked JSON
object). -/
inductive MainResult where
  | exitInvalidInput
  | exitFetchError (e : FetchErr)
  | exitUnexpected
  | exitEmptyTranscript
  | printPlain (text : String)
  | printChunked (video_id : String) (total_chunks : Nat) (chunks : List String)
deriving DecidableEq

/-- Function `main` from index.py, from ID extraction to output, in a given
world. -/
def pymain (w : World) (input : String) : MainResult :=
  match extract_video_id input with
  | none => .exitInvalidInput
  | some video_id =>
      let cacheRes := get_cached_transcript w.now w.cacheState
      let step : FetchRes :=
        match cacheRes.1 with
        | some segs => .ok segs
        | none =>
            match fetch_transcript w.provider with
            | .err e => .err e
            | .ok segs =>
                match save_to_cache w.makedirsOk w.writeOk w.now video_id
                    segs cacheRes.2 with
                | .raised => .err .Unexpected
                | .ok _ => .ok segs
      match step with
      | .err .Unexpected => .exitUnexpected
      | .err e => .exitFetchError e
      | .ok segs =>
          let formatted := format_transcript segs
          if formatted = "" then .exitEmptyTranscript
          else
            let chunks := (chunk_transcript formatted.data 4000).map
              (fun c => String.mk c)
            match chunks with
            | [c] => .printPlain c
            | cs2 => .printChunked video_id cs2.length cs2

/-- C3: the four terminal provider signals map to their category errors
without consulting the transcript listing, and only the
language-not-found signal makes the result depend on the listing at
all. -/
theorem C3_category_errors :
    (∀ l, fetch_transcript ⟨.transcriptsDisabled, l⟩ = .err .Disabled) ∧
    (∀ l, fetch_transcript ⟨.videoUnavailable, l⟩ = .err .Unavailable) ∧
    (∀ l, fetch_transcript ⟨.invalidVideoId, l⟩ = .err .InvalidId) ∧
    (∀ l, fetch_transcript ⟨.requestBlocked, l⟩ = .err .Blocked) ∧
    (∀ l, fetch_transcript ⟨.ipBlocked, l⟩ = .err .Blocked) ∧
    (∀ (o : FetchOutcome) (l1 l2 : Option (List (Option (List Segment)))),
      o ≠ .noTranscriptFound →
      fetch_transcript ⟨o, l1⟩ = fetch_transcript ⟨o, l2⟩) := by
  refine ⟨fun _ => rfl, fun _ => rfl, fun _ => rfl, fun _ => rfl, fun _ => rfl, ?_⟩
  intro o l1 l2 h
  cases o <;> first | rfl | exact absurd rfl h

/-- C3 witness: the listing-independence applied to the Disabled
signal with two different listings. -/
theorem C3_category_errors_witness :
    (FetchOutcome.transcriptsDisabled ≠ .noTranscriptFound) ∧
    fetch_transcript ⟨.transcriptsDisabled, none⟩ =
      fetch_transcript ⟨.transcriptsDisabled, some [some []]⟩ :=
  ⟨by decide, C3_category_errors.2.2.2.2.2 .transcriptsDisabled none
    (some [some []]) (by decide)⟩

/-- C4: when English is signalled as not found, the first transcript in
provider order is fetched and returned as-is; an empty listing, a
listing failure, or a failure fetching that first transcript all
collapse to the NoCaptions error. -/
theorem C4_fallback_takes_first :
    (∀ (segs : List Segment) (rest : List (Option (List Segment))),
      fetch_transcript ⟨.noTranscriptFound, some (some segs :: rest)⟩ =
        .ok segs) ∧
    (∀ rest : List (Option (List Segment)),
      fetch_transcript ⟨.noTranscriptFound, some (none :: rest)⟩ =
        .err .NoCaptions) ∧
    fetch_transcript ⟨.noTranscriptFound, some []⟩ = .err .NoCaptions ∧
    fetch_transcript ⟨.noTranscriptFound, none⟩ = .err .NoCaptions :=
  ⟨fun _ _ => rfl, fun _ => rfl, rfl, rfl⟩

/-- C2 counterexample: with a failing `os.makedirs` (e.g. a plain file
named `cache` in the skill directory), a cache write failure is NOT
swallowed: the pipeline exits with an unexpected error instead of
printing the transcript it had already fetched. -/
theorem C2_counterexample :
    pymain ⟨1000000, .missing, false, true,
        ⟨.success [⟨"hi", 65, 2⟩], none⟩⟩ "dQw4w9WgXcQ" = .exitUnexpected ∧
    pymain ⟨1000000, .missing, true, true,
        ⟨.success [⟨"hi", 65, 2⟩], none⟩⟩ "dQw4w9WgXcQ" =
      .printPlain "[01:05] hi" ∧
    MainResult.exitUnexpected ≠ .printPlain "[01:05] hi" := by
  refine ⟨by decide, by decide, by decide⟩

/-- C2 (amended): a failure of the cache-file write itself (`OSError`
from `open`/`json.dump`) is swallowed and the pipeline behaves exactly
as after a successful write; but a `os.makedirs` failure propagates
out of `save_to_cache` and aborts the run with an unexpected error. -/
theorem C2_amended_write_failure :
    (∀ (w : World) (input : String), w.makedirsOk = true →
      pymain { w with writeOk := false } input =
        pymain { w with writeOk := true } input) ∧
    (∀ (w : World) (input vid : String) (segs : List Segment),
      w.makedirsOk = false →
      extract_video_id input = some vid →
      (get_cached_transcript w.now w.cacheState).1 = none →
      fetch_transcript w.provider = .ok segs →
      pymain w input = .exitUnexpected) := by
  constructor
  · intro w input hmk
    obtain ⟨now, st, mk, wk, p⟩ := w
    simp only at hmk
    subst hmk
    cases hext : extract_video_id input with
    | none => simp [pymain, hext]
    | some vid =>
        cases hc : (get_cached_transcript now st).1 with
        | some segs => simp [pymain, hext, hc]
        | none =>
            cases hf : fetch_transcript p with
            | err e => simp [pymain, hext, hc, hf]
            | ok segs => simp [pymain, hext, hc, hf, save_to_cache]
  · intro w input vid segs hmk hext hc hf
    obtain ⟨now, st, mk, wk, p⟩ := w
    simp only at hmk hc hf
    subst hmk
    simp [pymain, hext, hc, hf, save_to_cache]

/-- C2 witness: the swallowed-write equality applied in a concrete
world with a cache miss and a successful fetch. -/
theorem C2_amended_write_failure_witness :
    pymain ⟨1000000, .missing, true, false,
        ⟨.success [⟨"hi", 65, 2⟩], none⟩⟩ "dQw4w9WgXcQ" =
      pymain ⟨1000000, .missing, true, true,
        ⟨.success [⟨"hi", 65, 2⟩], none⟩⟩ "dQw4w9WgXcQ" :=
  C2_amended_write_failure.1
    ⟨1000000, .missing, true, false, ⟨.success [⟨"hi", 65, 2⟩], none⟩⟩
    "dQw4w9WgXcQ" rfl

/-- C5 counterexample: a readable, well-formed, unexpired entry whose
`segments` key is absent also yields `None`, so "absent exactly when
missing, unreadable, corrupt, or expired" fails as a biconditional. -/
theorem C5_counterexample :
    ¬(((get_cached_transcript 100 (.entry (some 50) none)).1 = none) ↔
      (CacheFileState.entry (some 50) none = .missing ∨
        CacheFileState.entry (some 50) none = .unreadable ∨
        CacheFileState.entry (some 50) none = .corrupt ∨
        (100 : ℤ) - 50 > CACHE_TTL_SECONDS)) := by
  decide

/-- C5 (amended): `get_cached_transcript` returns `None` exactly when
the file is missing, unreadable, or corrupt, when the entry is expired,
or when a well-formed entry lacks the `segments` key; an expired entry
is deleted before returning, a corrupt or unreadable file is left in
place, and a fresh entry with segments returns them with the file
untouched. -/
theorem C5_amended_cache_get :
    ∀ (now : ℤ) (st : CacheFileState),
      ((get_cached_transcript now st).1 = none ↔
        (st = .missing ∨ st = .unreadable ∨ st = .corrupt ∨
          (∃ ca segs, st = .entry ca segs ∧
            now - ca.getD 0 > CACHE_TTL_SECONDS) ∨
          ∃ ca, st = .entry ca none)) ∧
      (∀ ca segs, st = .entry ca segs →
        now - ca.getD 0 > CACHE_TTL_SECONDS →
        (get_cached_transcript now st).2 = .missing) ∧
      ((st = .unreadable ∨ st = .corrupt) →
        (get_cached_transcript now st).2 = st) ∧
      (∀ ca segs, st = .entry ca (some segs) →
        ¬(now - ca.getD 0 > CACHE_TTL_SECONDS) →
        get_cached_transcript now st = (some segs, st)) := by
  intro now st
  refine ⟨?_, ?_, ?_, ?_⟩
  · cases st with
    | missing => simp [get_cached_transcript]
    | unreadable => simp [get_cached_transcript]
    | corrupt => simp [get_cached_transcript]
    | entry ca segs =>
        simp only [get_cached_transcript]
        by_cases h : now - ca.getD 0 > CACHE_TTL_SECONDS
        · rw [if_pos h]
          exact ⟨fun _ => Or.inr (Or.inr (Or.inr (Or.inl ⟨ca, segs, rfl, h⟩))),
            fun _ => rfl⟩
        · rw [if_neg h]
          cases segs with
          | none => simp [h]
          | some s => simp [h]
  · intro ca segs hst hexp
    subst hst
    simp [get_cached_transcript, if_pos hexp]
  · intro h
    rcases h with rfl | rfl <;> rfl
  · intro ca segs hst hnot
    subst hst
    simp [get_cached_transcript, if_neg hnot]

/-- C5 witness: the characterization applied to an expired entry (file
deleted) and to a fresh entry (segments returned, file untouched). -/
theorem C5_amended_cache_get_witness :
    (get_cached_transcript 700000 (.entry (some 0) (some []))).2 =
      .missing ∧
    get_cached_transcript 100 (.entry (some 50) (some [])) =
      (some [], .entry (some 50) (some [])) :=
  ⟨(C5_amended_cache_get 700000 (.entry (some 0) (some []))).2.1
      (some 0) (some []) rfl (by decide),
    (C5_amended_cache_get 100 (.entry (some 50) (some []))).2.2.2
      (some 50) [] rfl (by decide)⟩

/-- C10: an entry without a `cached_at` key defaults to 0, so (for any
clock past the TTL) it is treated as expired — deleted and reported
absent — unlike corrupt files, which stay; and a well-formed, unexpired
entry without a `segments` key is reported absent with the file left in
place. -/
theorem C10_missing_fields :
    (∀ (now : ℤ) (segs : Option (List Segment)), now > 604800 →
      get_cached_transcript now (.entry none segs) = (none, .missing)) ∧
    (∀ now ca : ℤ, now - ca ≤ CACHE_TTL_SECONDS →
      get_cached_transcript now (.entry (some ca) none) =
        (none, .entry (some ca) none)) := by
  constructor
  · intro now segs h
    simp only [get_cached_transcript]
    rw [if_pos (by simp only [Option.getD, CACHE_TTL_SECONDS]; omega)]
  · intro now ca h
    simp only [get_cached_transcript]
    rw [if_neg (by simp only [Option.getD]; omega)]

/-- C10 witness: both parts at concrete clocks. -/
theorem C10_missing_fields_witness :
    get_cached_transcript 1000000 (.entry none (some [])) = (none, .missing) ∧
    get_cached_transcript 100 (.entry (some 50) none) =
      (none, .entry (some 50) none) :=
  ⟨C10_missing_fields.1 1000000 (some []) (by decide),
    C10_missing_fields.2 100 50 (by decide)⟩

end YTS
